import Mathlib

/-!
Verification development for the Karu_FM terminal file browser
(`src/main.rs`).  The Rust program is shallowly embedded:

* file and directory names are Lean `String`s (Rust `String` /
  `to_string_lossy` output);
* filesystem paths are Lean `String`s manipulated with functions that
  model Rust's `std::path` component semantics (`join`, `parent`,
  `file_name`, `ends_with`, `starts_with`) on Unix;
* the filesystem, the trash service, the image decoder and the terminal
  are oracles collected in an `Fs` structure: each fallible Rust call
  (`fs::copy`, `trash::delete`, ...) is given a success/failure verdict
  by the oracle, and a failing call followed by `.unwrap()` in the
  source is modelled as the overall operation returning `none`
  (the Rust program panics there);
* `App` mirrors the `App` struct of the source field by field (the
  render-only `action_list_state: ListState` cache is omitted), and
  `step` mirrors the keyboard `match` of `run_app` arm by arm.

Modelling notes, stated once:
* Rust's `Vec::sort_by` is a stable sort; it is modelled by
  `List.insertionSort`, which is also stable, and two stable sorts by
  the same total preorder agree element for element.
* Rust's `str::to_lowercase` is full-Unicode and not reproduced here:
  the ordering and preview theorems take the lowercasing function as an
  abstract parameter (the `…With low` definitions) and hold for every
  choice of it, in particular the real one; `asciiLowerString` (only
  `'A'..'Z'` map to `'a'..'z'`) is the instance the executable machine
  and the concrete evaluations use, and every string those evaluate on
  is unchanged by the non-ASCII part of Unicode lowercasing.
* Rust string comparison (`Ord` on `str`) is byte order of the UTF-8
  encoding, which equals code-point lexicographic order; it is modelled
  by `charListLe` on code points.
* `String::insert`/`remove` take byte indices in Rust; the model uses
  character indices, which agree on ASCII buffers.
-/

namespace Karu

/-- ASCII fragment of Rust `char::to_lowercase` (see header note). -/
def charLower (c : Char) : Char :=
  if 65 ≤ c.toNat ∧ c.toNat ≤ 90 then Char.ofNat (c.toNat + 32) else c

/-- `name.to_lowercase()` as a character list (ASCII fragment). -/
def lowerChars (s : String) : List Char := s.data.map charLower

/-- Lexicographic `≤` on character lists by code point: Rust `str::cmp`
(UTF-8 byte order) restricted to "is not `Greater`". -/
def charListLe : List Char → List Char → Bool
  | [], _ => true
  | _ :: _, [] => false
  | a :: as, b :: bs =>
    if a.toNat < b.toNat then true
    else if b.toNat < a.toNat then false
    else charListLe as bs

/-- Case-insensitive name order, the order the specification demands
inside each listing group ("each group case-insensitively sorted by
name"). -/
def ciLe (a b : String) : Bool := charListLe (lowerChars a) (lowerChars b)

/-- `name.chars().any(|c| !c.is_ascii())` from the `get_files`
comparator. -/
def hasNonAscii (s : String) : Bool := s.data.any fun c => decide (127 < c.toNat)

/-- `name.starts_with('.')` — the hidden-entry test of the source. -/
def startsDot (s : String) : Bool :=
  match s.data with
  | [] => false
  | c :: _ => decide (c = '.')

/-- One entry as returned by `fs::read_dir`: its final name and whether
`entry_path.is_dir()` holds. -/
structure RawEntry where
  name : String
  isDir : Bool
  deriving DecidableEq, Repr

/-- The `sort_by` comparator of `App::get_files` (src/main.rs:99-109),
read as "compares `≤`" (comparator result is not `Greater`): non-ASCII
names first, then non-hidden before hidden, then case-insensitive name
order. -/
def entryLe (a b : RawEntry) : Bool :=
  match hasNonAscii a.name, hasNonAscii b.name with
  | true, false => true
  | false, true => false
  | _, _ =>
    match startsDot a.name, startsDot b.name with
    | true, false => false
    | false, true => true
    | _, _ => ciLe a.name b.name

/-- `entryLe` as a relation, for `List.insertionSort`. -/
def entryR (a b : RawEntry) : Prop := entryLe a b = true

instance : DecidableRel entryR := fun a b => inferInstanceAs (Decidable (entryLe a b = true))

theorem charListLe_total : ∀ a b : List Char, charListLe a b = true ∨ charListLe b a = true := by
  intro a
  induction a with
  | nil => intro b; left; rfl
  | cons x xs ih =>
    intro b
    cases b with
    | nil => right; rfl
    | cons y ys =>
      simp only [charListLe]
      rcases Nat.lt_trichotomy x.toNat y.toNat with h | h | h
      · left; simp [h]
      · have h1 : ¬ x.toNat < y.toNat := by omega
        have h2 : ¬ y.toNat < x.toNat := by omega
        rcases ih ys with h3 | h3
        · left; simp [h1, h2, h3]
        · right; simp [h1, h2, h3]
      · right; simp [h, Nat.lt_asymm h]

theorem charListLe_trans : ∀ a b c : List Char,
    charListLe a b = true → charListLe b c = true → charListLe a c = true := by
  intro a
  induction a with
  | nil => intro b c _ _; rfl
  | cons x xs ih =>
    intro b c hab hbc
    cases b with
    | nil => simp [charListLe] at hab
    | cons y ys =>
      cases c with
      | nil => simp [charListLe] at hbc
      | cons z zs =>
        simp only [charListLe] at hab hbc ⊢
        split_ifs at hab hbc ⊢ <;>
          first
            | rfl
            | (exact ih ys zs hab hbc)
            | (exact absurd hab (by decide))
            | (exact absurd hbc (by decide))
            | (exfalso; omega)

/-- `all_entries.sort_by(...)` of `App::get_files`: Rust's stable sort
with the source comparator, modelled by the stable `insertionSort`. -/
def sortEntries (es : List RawEntry) : List RawEntry := List.insertionSort entryR es

/-- The partition loop of `App::get_files` (src/main.rs:110-138): walk
the sorted entries, skip `"."`/`".."` and (when hidden are off) hidden
names, and distribute the rest over the four group vectors in order. -/
def partitionGroups (sh : Bool) :
    List RawEntry → List String × List String × List String × List String
  | [] => ([], [], [], [])
  | e :: rest =>
    let g := partitionGroups sh rest
    if e.name = "." ∨ e.name = ".." then g
    else if !sh && startsDot e.name then g
    else if e.isDir then
      if startsDot e.name then (e.name :: g.1, g.2.1, g.2.2.1, g.2.2.2)
      else (g.1, e.name :: g.2.1, g.2.2.1, g.2.2.2)
    else
      if startsDot e.name then (g.1, g.2.1, e.name :: g.2.2.1, g.2.2.2)
      else (g.1, g.2.1, g.2.2.1, e.name :: g.2.2.2)

/-- `App::get_files` (src/main.rs:94-145): sort the raw entries with the
source comparator, partition into the four groups, and prepend the
synthetic `".."`.  The `fs::read_dir` call is assumed to succeed (its
`.unwrap()` is outside this function's modelled behaviour). -/
def get_files (es : List RawEntry) (sh : Bool) : List String :=
  let g := partitionGroups sh (sortEntries es)
  ".." :: (g.1 ++ g.2.1 ++ g.2.2.1 ++ g.2.2.2)

/-- The filter the partition loop applies before classifying. -/
def keepB (sh : Bool) (e : RawEntry) : Bool :=
  !(e.name = ".") && !(e.name = "..") && (sh || !startsDot e.name)

theorem partitionGroups_eq (sh : Bool) (l : List RawEntry) :
    partitionGroups sh l =
      ((l.filter fun e => keepB sh e && e.isDir && startsDot e.name).map RawEntry.name,
       (l.filter fun e => keepB sh e && e.isDir && !startsDot e.name).map RawEntry.name,
       (l.filter fun e => keepB sh e && !e.isDir && startsDot e.name).map RawEntry.name,
       (l.filter fun e => keepB sh e && !e.isDir && !startsDot e.name).map RawEntry.name) := by
  induction l with
  | nil => rfl
  | cons e rest ih =>
    simp only [partitionGroups, ih, List.filter, keepB]
    by_cases h1 : e.name = "." ∨ e.name = ".."
    · rcases h1 with h | h <;> simp [h]
    · push_neg at h1
      by_cases h2 : sh
      · subst h2
        simp only [h1.1, h1.2]
        cases hd : e.isDir <;> cases hs : startsDot e.name <;> simp [h1.1, h1.2, hd, hs]
      · have h2' : sh = false := by simpa using h2
        subst h2'
        cases hs : startsDot e.name
        · simp only [h1.1, h1.2, hs]
          cases hd : e.isDir <;> simp [h1.1, h1.2, hd, hs]
        · simp [h1.1, h1.2, hs]

/-- Rust's `str::to_lowercase` is a full-Unicode, possibly
length-changing mapping that this development does not reproduce; the
ordering theorems below therefore take the lowercasing function `low`
as an abstract parameter and hold for every choice of it — in
particular for the real one.  `asciiLowerString` is its ASCII fragment
(it agrees with `str::to_lowercase` on every string whose characters
are unchanged by non-ASCII lowercasing); the executable machine uses
the instance at `asciiLowerString`, see `get_files_eq_with`. -/
def asciiLowerString (s : String) : String := ⟨lowerChars s⟩

/-- `a.to_lowercase().cmp(&b.to_lowercase()) ≠ Greater`, the last key
of the comparator, with the lowercasing kept abstract. -/
def ciLeWith (low : String → String) (a b : String) : Bool :=
  charListLe (low a).data (low b).data

/-- The `sort_by` comparator of `App::get_files` (src/main.rs:99-109)
with the lowercasing kept abstract (same structure as `entryLe`). -/
def entryLeWith (low : String → String) (a b : RawEntry) : Bool :=
  match hasNonAscii a.name, hasNonAscii b.name with
  | true, false => true
  | false, true => false
  | _, _ =>
    match startsDot a.name, startsDot b.name with
    | true, false => false
    | false, true => true
    | _, _ => ciLeWith low a.name b.name

def entryRWith (low : String → String) (a b : RawEntry) : Prop := entryLeWith low a b = true

instance (low : String → String) : DecidableRel (entryRWith low) :=
  fun a b => inferInstanceAs (Decidable (entryLeWith low a b = true))

theorem ciLeWith_total (low : String → String) (a b : String) :
    ciLeWith low a b = true ∨ ciLeWith low b a = true :=
  charListLe_total _ _

theorem ciLeWith_trans (low : String → String) {a b c : String}
    (h1 : ciLeWith low a b = true) (h2 : ciLeWith low b c = true) :
    ciLeWith low a c = true :=
  charListLe_trans _ _ _ h1 h2

instance (low : String → String) : IsTotal RawEntry (entryRWith low) := by
  constructor
  intro a b
  unfold entryRWith entryLeWith
  cases hna : hasNonAscii a.name <;> cases hnb : hasNonAscii b.name <;>
    cases hda : startsDot a.name <;> cases hdb : startsDot b.name <;>
      simp [ciLeWith_total low a.name b.name]

instance (low : String → String) : IsTrans RawEntry (entryRWith low) := by
  constructor
  intro a b c hab hbc
  unfold entryRWith entryLeWith at hab hbc ⊢
  cases hna : hasNonAscii a.name <;> cases hnb : hasNonAscii b.name <;>
    cases hnc : hasNonAscii c.name <;>
    cases hda : startsDot a.name <;> cases hdb : startsDot b.name <;>
      cases hdc : startsDot c.name <;>
      simp_all <;> exact ciLeWith_trans low hab hbc

/-- `sortEntries` with the lowercasing kept abstract. -/
def sortEntriesWith (low : String → String) (es : List RawEntry) : List RawEntry :=
  List.insertionSort (entryRWith low) es

/-- `App::get_files` with the lowercasing kept abstract; instantiated
at Rust's real `str::to_lowercase`, this is exactly the program's
listing function. -/
def get_filesWith (low : String → String) (es : List RawEntry) (sh : Bool) : List String :=
  let g := partitionGroups sh (sortEntriesWith low es)
  ".." :: (g.1 ++ g.2.1 ++ g.2.2.1 ++ g.2.2.2)

/-- The executable `get_files` is the instance at the ASCII fragment. -/
theorem get_files_eq_with (es : List RawEntry) (sh : Bool) :
    get_files es sh = get_filesWith asciiLowerString es sh := rfl

theorem sortEntriesWith_sorted (low : String → String) (es : List RawEntry) :
    (sortEntriesWith low es).Pairwise (entryRWith low) :=
  List.sorted_insertionSort (entryRWith low) es

theorem sortEntriesWith_perm (low : String → String) (es : List RawEntry) :
    List.Perm (sortEntriesWith low es) es :=
  List.perm_insertionSort (entryRWith low) es

/-- The order that governs names inside one group: non-ASCII names
first, then case-insensitive comparison of the `low`-lowercased names
(`entryLeWith` with the hidden test equal on both sides).  Ties —
names with the same lowercasing — satisfy it in both directions, so a
stable sort's output is `Pairwise` under it whatever order the input
had. -/
def withinGroupLeWith (low : String → String) (a b : String) : Bool :=
  match hasNonAscii a, hasNonAscii b with
  | true, false => true
  | false, true => false
  | _, _ => ciLeWith low a b

theorem entryLeWith_eq_withinGroup (low : String → String) {a b : RawEntry}
    (h : startsDot a.name = startsDot b.name) :
    entryLeWith low a b = withinGroupLeWith low a.name b.name := by
  unfold entryLeWith withinGroupLeWith
  cases hna : hasNonAscii a.name <;> cases hnb : hasNonAscii b.name <;>
    cases hda : startsDot a.name <;> cases hdb : startsDot b.name <;> simp_all

/-! ## Rust `std::path` model (Unix) -/

/-- One `std::path::Component` (Unix: no prefixes). -/
inductive RustPathComp
  | root
  | cur
  | parent
  | normal (s : List Char)
  deriving DecidableEq, Repr

/-- Split a character list on `'/'`. -/
def splitSlash : List Char → List Char × List (List Char)
  | [] => ([], [])
  | c :: rest =>
    let r := splitSlash rest
    if c = '/' then ([], r.1 :: r.2) else (c :: r.1, r.2)

/-- `Path::components()` on Unix: leading `/` is `RootDir`, empty
pieces collapse, `"."` pieces are normalized away except a leading one
on a relative path, `".."` is `ParentDir`. -/
def pathComponents (s : String) : List RustPathComp :=
  let sp := splitSlash s.data
  let parts := (sp.1 :: sp.2).filter fun p => p ≠ []
  let isAbs : Bool := match s.data with | c :: _ => decide (c = '/') | [] => false
  let toComp : List Char → RustPathComp := fun p =>
    if p = ['.', '.'] then .parent else .normal p
  if isAbs then
    .root :: ((parts.filter fun p => p ≠ ['.']).map toComp)
  else
    match parts with
    | p :: rest =>
      if p = ['.'] then .cur :: ((rest.filter fun q => q ≠ ['.']).map toComp)
      else (parts.filter fun q => q ≠ ['.']).map toComp
    | [] => []

/-- Render a component list back to a string (used by `parent`, which
in Rust returns a slice of the original path; on the normalized paths
appearing below the two agree). -/
def compStr : RustPathComp → String
  | .root => ""
  | .cur => "."
  | .parent => ".."
  | .normal p => ⟨p⟩

def renderComps (cs : List RustPathComp) : String :=
  match cs with
  | .root :: rest => "/" ++ String.intercalate "/" (rest.map compStr)
  | l => String.intercalate "/" (l.map compStr)

/-- `PathBuf::join` / `push` on Unix: an absolute argument replaces the
path, otherwise a `/` separator is inserted when needed. -/
def rustJoin (base child : String) : String :=
  if (match child.data with | c :: _ => decide (c = '/') | [] => false) then child
  else if base = "" then child
  else if base.data.getLast? = some '/' then base ++ child
  else base ++ "/" ++ child

/-- `Path::parent()`: drop the last component; `None` for the root and
the empty path. -/
def rustParent (s : String) : Option String :=
  match pathComponents s with
  | [] => none
  | [.root] => none
  | cs => some (renderComps cs.dropLast)

/-- `Path::file_name()`: the last component when it is a normal one. -/
def rustFileName (s : String) : Option String :=
  match (pathComponents s).getLast? with
  | some (.normal p) => some ⟨p⟩
  | _ => none

/-- `Path::ends_with`: the argument's components are a suffix of the
path's components (this is the test `run_app` uses on the Create
commit). -/
def rustEndsWith (p q : String) : Bool :=
  (pathComponents q).isSuffixOf (pathComponents p)

/-- `App::normalize_path` (src/main.rs:87-93): expand a leading `~`
component against `$HOME`, otherwise return the path unchanged
(`Path::starts_with("~")` is component-based). -/
def normalize_path (home : String) (s : String) : String :=
  match pathComponents s with
  | .normal t :: rest => if t = ['~'] then rustJoin home (renderComps rest) else s
  | _ => s

end Karu

namespace Karu

/-! ## Filesystem / external-service oracle -/

/-- Oracle for every external call the program makes.  `…Ok` fields
give the success verdict of the corresponding fallible Rust call; the
source follows each of those calls with `.unwrap()`, so a `false`
verdict makes the modelled operation return `none` (panic). -/
structure Fs where
  home : String
  dirEntries : String → List RawEntry
  isDir : String → Bool
  trashOk : String → Bool
  copyOk : String → String → Bool
  createDirAllOk : String → Bool
  createFileOk : String → Bool
  removeFileOk : String → Bool
  removeDirAllOk : String → Bool
  renameOk : String → String → Bool
  writeOk : String → String → Bool
  readToString : String → Option String
  metadataLen : String → Option Nat
  readBytes : String → Option (List Nat)
  decodeOk : List Nat → Bool
  printOk : Bool

/-- `Self::get_files(path, show_hidden)` against the oracle. -/
def Fs.list (fs : Fs) (p : String) (sh : Bool) : List String :=
  get_files (fs.dirEntries p) sh

/-- Externally visible filesystem / service effects an operation emits,
in program order. -/
inductive FsEffect
  | trashDelete (p : String)
  | createDirAll (p : String)
  | copyFile (src dst : String)
  | removeFile (p : String)
  | removeDirAll (p : String)
  | createFile (p : String)
  | rename (src dst : String)
  | writeFile (p : String) (content : String)
  | spawnOpen (p : String)
  deriving DecidableEq, Repr

/-! ## The `App` state -/

inductive AppMode
  | Normal | ConfirmDelete | Editing | Create | Rename | Filter | View | Edit
  | CreateDirectory | Move | Find | Replace
  deriving DecidableEq, Repr

inductive PanelFocus
  | Files | Actions | TopBarButtons
  deriving DecidableEq, Repr

inductive TopBarFocus
  | AddressBar | PrevButton | NextButton | UpButton
  deriving DecidableEq, Repr

/-- The `App` struct (src/main.rs:52-77); the render-only
`action_list_state` cache is omitted. -/
structure App where
  path : String
  files : List String
  selected : Nat
  mode : AppMode
  address_input : String
  cursor_position : Nat
  create_input : String
  rename_input : String
  clipboard : Option String
  is_cut : Bool
  show_hidden : Bool
  filter_input : String
  file_content : String
  edit_content : String
  create_directory_input : String
  move_input : String
  find_input : String
  replace_input : String
  selected_action : Nat
  panel_focus : PanelFocus
  history : List String
  history_index : Nat
  top_bar_focus : TopBarFocus
  deriving DecidableEq, Repr

/-- `App::new` (src/main.rs:79-86). -/
def App.new (fs : Fs) (path : String) : App :=
  let normalized := normalize_path fs.home path
  { path := normalized
    files := get_files (fs.dirEntries normalized) true
    selected := 0
    mode := .Normal
    address_input := normalized
    cursor_position := normalized.data.length
    create_input := ""
    rename_input := ""
    clipboard := none
    is_cut := false
    show_hidden := true
    filter_input := ""
    file_content := ""
    edit_content := ""
    create_directory_input := ""
    move_input := ""
    find_input := ""
    replace_input := ""
    selected_action := 0
    panel_focus := .Files
    history := [normalized]
    history_index := 0
    top_bar_focus := .AddressBar }

/-! ## The `impl App` operations -/

/-- `App::select_next` (src/main.rs:146-150).  (In a release build the
`len - 1` underflow on an empty list wraps; the model is a no-op there,
and every theorem about this function assumes a non-empty listing.) -/
def App.select_next (a : App) : App :=
  if a.selected < a.files.length - 1 then { a with selected := a.selected + 1 } else a

/-- `App::select_previous` (src/main.rs:151-155). -/
def App.select_previous (a : App) : App :=
  if 0 < a.selected then { a with selected := a.selected - 1 } else a

/-- `App::update_path` (src/main.rs:198-207): truncate forward history,
re-list, reset the selection, append, move the index to the new tail. -/
def App.update_path (fs : Fs) (a : App) (newPath : String) : App :=
  let hist :=
    if a.history_index < a.history.length - 1 then a.history.take (a.history_index + 1)
    else a.history
  let hist := hist ++ [newPath]
  { a with path := newPath
           files := fs.list newPath a.show_hidden
           selected := 0
           history := hist
           history_index := hist.length - 1 }

/-- `App::open_selected` (src/main.rs:156-176).  `".."` changes the
path directly without going through `update_path`; other directories
do go through it; files are spawned to `xdg-open`. -/
def App.open_selected (fs : Fs) (a : App) : Option (App × List FsEffect) := do
  let sel ← a.files[a.selected]?
  if sel = ".." then
    let par := (rustParent a.path).getD a.path
    pure ({ a with path := par, files := fs.list par a.show_hidden, selected := 0 }, [])
  else
    let np := normalize_path fs.home (rustJoin a.path sel)
    if fs.isDir np then pure (App.update_path fs a np, [])
    else pure (a, [.spawnOpen np])

/-- `App::go_to_parent_directory` (src/main.rs:177-181). -/
def App.go_to_parent_directory (fs : Fs) (a : App) : App :=
  match rustParent a.path with
  | some p => App.update_path fs a p
  | none => a

/-- `App::go_back` (src/main.rs:182-189). -/
def App.go_back (fs : Fs) (a : App) : Option App :=
  if 0 < a.history_index then do
    let p ← a.history[a.history_index - 1]?
    pure { a with history_index := a.history_index - 1
                  path := p
                  files := fs.list p a.show_hidden
                  selected := 0 }
  else pure a

/-- `App::go_forward` (src/main.rs:190-197). -/
def App.go_forward (fs : Fs) (a : App) : Option App :=
  if a.history_index < a.history.length - 1 then do
    let p ← a.history[a.history_index + 1]?
    pure { a with history_index := a.history_index + 1
                  path := p
                  files := fs.list p a.show_hidden
                  selected := 0 }
  else pure a

/-- `App::delete_selected` (src/main.rs:208-210). -/
def App.delete_selected (a : App) : App := { a with mode := .ConfirmDelete }

/-- `App::confirm_delete` (src/main.rs:211-218): `trash::delete(path)
.unwrap()`, then re-list and reset. -/
def App.confirm_delete (fs : Fs) (a : App) : Option (App × List FsEffect) := do
  let sel ← a.files[a.selected]?
  let p := rustJoin a.path sel
  if fs.trashOk p then
    pure ({ a with files := fs.list a.path a.show_hidden, selected := 0, mode := .Normal },
          [.trashDelete p])
  else none

/-- `App::cancel_delete` (src/main.rs:219-221). -/
def App.cancel_delete (a : App) : App := { a with mode := .Normal }

/-- `App::copy_selected` (src/main.rs:222-226): stores the joined path
in the clipboard; touches nothing else — in particular `is_cut` keeps
its previous value. -/
def App.copy_selected (a : App) : Option App := do
  let sel ← a.files[a.selected]?
  pure { a with clipboard := some (rustJoin a.path sel) }

/-- `App::cut_selected` (src/main.rs:227-233). -/
def App.cut_selected (a : App) : Option App := do
  let sel ← a.files[a.selected]?
  pure { a with clipboard := some (rustJoin a.path sel), is_cut := true, mode := .Normal }

/-- The `for entry in fs::read_dir(from)` loop of `App::paste`
(src/main.rs:239-244): one `fs::copy(path, to).unwrap()` per direct
child, in order.  `fs::copy` on a child that is itself a directory
fails on Linux (EISDIR), which the oracle expresses through `copyOk`. -/
def pasteChildren (fs : Fs) (fr dst : String) : List RawEntry → Option (List FsEffect)
  | [] => some []
  | c :: rest => do
    let src := rustJoin fr c.name
    let n ← rustFileName src
    let d := rustJoin dst n
    if fs.copyOk src d then do
      let es ← pasteChildren fs fr dst rest
      pure (.copyFile src d :: es)
    else none

/-- `App::paste` (src/main.rs:234-259). -/
def App.paste (fs : Fs) (a : App) : Option (App × List FsEffect) :=
  match a.clipboard with
  | none => some (a, [])
  | some fr => do
    let n ← rustFileName fr
    let dst := rustJoin a.path n
    let copyEffs ←
      if fs.isDir fr then
        if fs.createDirAllOk dst then do
          let es ← pasteChildren fs fr dst (fs.dirEntries fr)
          pure (FsEffect.createDirAll dst :: es)
        else none
      else
        if fs.copyOk fr dst then pure [FsEffect.copyFile fr dst] else none
    if a.is_cut then
      if fs.isDir fr then
        if fs.removeDirAllOk fr then
          pure ({ a with is_cut := false, clipboard := none
                         files := fs.list a.path a.show_hidden },
                copyEffs ++ [.removeDirAll fr])
        else none
      else
        if fs.removeFileOk fr then
          pure ({ a with is_cut := false, clipboard := none
                         files := fs.list a.path a.show_hidden },
                copyEffs ++ [.removeFile fr])
        else none
    else
      pure ({ a with files := fs.list a.path a.show_hidden }, copyEffs)

/-- `App::save_file` (src/main.rs:260-268): for a non-directory
selection, read its content (or the fallback string) and
`fs::write("saved_file.txt", content).unwrap()` — a relative path,
resolved against the process's current working directory. -/
def App.save_file (fs : Fs) (a : App) : Option (App × List FsEffect) := do
  let sel ← a.files[a.selected]?
  let p := rustJoin a.path sel
  if fs.isDir p then pure (a, [])
  else
    let content := (fs.readToString p).getD "Cannot read file"
    if fs.writeOk "saved_file.txt" content then
      pure (a, [.writeFile "saved_file.txt" content])
    else none

/-- `App::open_file` (src/main.rs:269-279). -/
def App.open_file (fs : Fs) (a : App) : Option (App × List FsEffect) := do
  let sel ← a.files[a.selected]?
  let p := rustJoin a.path sel
  if fs.isDir p then pure (a, []) else pure (a, [.spawnOpen p])

/-- `App::toggle_hidden_files` (src/main.rs:280-284). -/
def App.toggle_hidden_files (fs : Fs) (a : App) : App :=
  let sh := !a.show_hidden
  { a with show_hidden := sh, files := fs.list a.path sh, selected := 0 }

/-- `App::view_file` (src/main.rs:285-293). -/
def App.view_file (fs : Fs) (a : App) : Option App := do
  let sel ← a.files[a.selected]?
  let p := rustJoin a.path sel
  if fs.isDir p then pure a
  else pure { a with file_content := (fs.readToString p).getD "Cannot read file", mode := .View }

/-- `App::edit_file` (src/main.rs:294-302). -/
def App.edit_file (fs : Fs) (a : App) : Option App := do
  let sel ← a.files[a.selected]?
  let p := rustJoin a.path sel
  if fs.isDir p then pure a
  else pure { a with edit_content := (fs.readToString p).getD "Cannot read file", mode := .Edit }

end Karu
namespace Karu

/-! ## The keyboard state machine of `run_app` (src/main.rs:727-1036) -/

inductive KeyCode
  | char (c : Char) | enter | esc | backspace | tab | delete | up | down | left | right
  deriving DecidableEq, Repr

/-- One keyboard event with its modifier flags. -/
structure KeyEvent where
  code : KeyCode
  ctrl : Bool := false
  alt : Bool := false
  deriving DecidableEq, Repr

/-- Outcome of handling one key: continue with a new state and the
effects emitted, leave the loop (the `return Ok(())` arms), or panic
(an `.unwrap()` on a failed call, or an out-of-bounds index). -/
inductive Step
  | cont (a : App) (effs : List FsEffect)
  | exit
  | panic
  deriving DecidableEq, Repr

def contOf : Option (App × List FsEffect) → Step
  | some (a, e) => .cont a e
  | none => .panic

def contA : Option App → Step
  | some a => .cont a []
  | none => .panic

/-- `String::insert` (byte index in Rust, character index here). -/
def insertCharAt (s : String) (i : Nat) (c : Char) : String :=
  ⟨s.data.take i ++ c :: s.data.drop i⟩

/-- `String::remove` (byte index in Rust, character index here). -/
def removeCharAt (s : String) (i : Nat) : String :=
  ⟨s.data.take i ++ s.data.drop (i + 1)⟩

/-- Rust `String::pop`: drop the last character. -/
def strPop (s : String) : String := ⟨s.data.dropLast⟩

/-- Rust `str::contains(&substring)`. -/
def rustContains (hay needle : String) : Bool :=
  hay.data.tails.any fun t => needle.data.isPrefixOf t

/-- The `Filter` Enter commit (src/main.rs:886-891): re-list, retain
the names containing the typed substring, reset the selection.  The
synthetic `".."` is subject to `retain` like every other name. -/
def App.filter_commit (fs : Fs) (a : App) : App :=
  { a with files := (fs.list a.path a.show_hidden).filter fun f => rustContains f a.filter_input
           selected := 0
           mode := .Normal }

/-- The commit decision of the `Create` Enter arm (src/main.rs:843-853):
`Path::ends_with("/")` (a component-wise test) decides between
`fs::create_dir_all` and `fs::File::create`. -/
inductive CreateAction
  | dirAll (p : String)
  | file (p : String)
  deriving DecidableEq, Repr

def createCommit (base input : String) : CreateAction :=
  let newPath := rustJoin base input
  if rustEndsWith newPath "/" then .dirAll newPath else .file newPath

/-- `AppMode::Normal` / `PanelFocus::Files` key handling
(src/main.rs:737-763). -/
def stepNormalFiles (fs : Fs) (a : App) (k : KeyEvent) : Step :=
  match k.code with
  | .left => if k.alt then contA (App.go_back fs a) else .cont a []
  | .right => if k.alt then contA (App.go_forward fs a) else .cont { a with panel_focus := .Actions } []
  | .up => if k.alt then .cont (App.go_to_parent_directory fs a) [] else .cont a.select_previous []
  | .down => .cont a.select_next []
  | .enter => contOf (App.open_selected fs a)
  | .tab => .cont { a with panel_focus := .TopBarButtons } []
  | .delete => .cont a.delete_selected []
  | .backspace => .cont (App.go_to_parent_directory fs a) []
  | .esc => .cont a []
  | .char c =>
    if c = 'q' then .exit
    else if c = 'd' then .cont a.delete_selected []
    else if c = '/' then
      .cont { a with mode := .Editing, panel_focus := .TopBarButtons, top_bar_focus := .AddressBar } []
    else if c = 'n' then .cont { a with mode := .Create } []
    else if c = 'c' then contA a.copy_selected
    else if c = 'x' then contA a.cut_selected
    else if c = 'p' then contOf (App.paste fs a)
    else if c = 's' then contOf (App.save_file fs a)
    else if c = 'o' then contOf (App.open_file fs a)
    else if c = 'h' then .cont (App.toggle_hidden_files fs a) []
    else if c = 'v' then contA (App.view_file fs a)
    else if c = 'e' then contA (App.edit_file fs a)
    else if c = 'f' then
      if k.ctrl then .cont { a with mode := .Find } [] else .cont { a with mode := .Filter } []
    else if c = 'r' then
      if k.ctrl then .cont { a with mode := .Replace } [] else .cont { a with mode := .Rename } []
    else if c = '+' then .cont { a with mode := .CreateDirectory } []
    else if c = 'm' then .cont { a with mode := .Move } []
    else .cont a []

/-- `AppMode::Normal` / `PanelFocus::Actions` key handling
(src/main.rs:764-788).  The Enter dispatch runs the chosen action and
then unconditionally resets `mode := Normal`, `panel_focus := Files`
(the `Quit` row returns before the reset). -/
def stepActions (fs : Fs) (a : App) (k : KeyEvent) : Step :=
  match k.code with
  | .up =>
    if 0 < a.selected_action then .cont { a with selected_action := a.selected_action - 1 } []
    else .cont a []
  | .down =>
    if a.selected_action < 13 then .cont { a with selected_action := a.selected_action + 1 } []
    else .cont a []
  | .left => .cont { a with panel_focus := .Files } []
  | .enter =>
    let done : Option (App × List FsEffect) → Step := fun r =>
      match r with
      | some (a', e) => .cont { a' with mode := .Normal, panel_focus := .Files } e
      | none => .panic
    match a.selected_action with
    | 0 => done (a.cut_selected.map fun x => (x, []))
    | 1 => done (a.copy_selected.map fun x => (x, []))
    | 2 => done (App.paste fs a)
    | 3 => done (some (a.delete_selected, []))
    | 4 => done (some ({ a with mode := .Rename }, []))
    | 5 => done (some ({ a with mode := .Create }, []))
    | 6 => done (some ({ a with mode := .CreateDirectory }, []))
    | 7 => done (some ({ a with mode := .Move }, []))
    | 8 => done ((App.view_file fs a).map fun x => (x, []))
    | 9 => done ((App.edit_file fs a).map fun x => (x, []))
    | 10 => done (some ({ a with mode := .Find }, []))
    | 11 => done (some ({ a with mode := .Replace }, []))
    | 12 => done (some (App.toggle_hidden_files fs a, []))
    | 13 => .exit
    | _ => done (some (a, []))
  | .esc => .cont { a with mode := .Normal, panel_focus := .Files } []
  | _ => .cont a []

/-- `AppMode::Normal` / `PanelFocus::TopBarButtons` key handling
(src/main.rs:789-810). -/
def stepTopBar (fs : Fs) (a : App) (k : KeyEvent) : Step :=
  match k.code with
  | .left =>
    .cont { a with top_bar_focus :=
      match a.top_bar_focus with
      | .AddressBar => .UpButton
      | .PrevButton => .AddressBar
      | .NextButton => .PrevButton
      | .UpButton => .NextButton } []
  | .right =>
    .cont { a with top_bar_focus :=
      match a.top_bar_focus with
      | .AddressBar => .PrevButton
      | .PrevButton => .NextButton
      | .NextButton => .UpButton
      | .UpButton => .AddressBar } []
  | .enter =>
    let r : Option App :=
      match a.top_bar_focus with
      | .AddressBar => some { a with mode := .Editing }
      | .PrevButton => App.go_back fs a
      | .NextButton => App.go_forward fs a
      | .UpButton => some (App.go_to_parent_directory fs a)
    match r with
    | none => .panic
    | some a' =>
      if a'.top_bar_focus ≠ .AddressBar then .cont { a' with panel_focus := .Files } []
      else .cont a' []
  | .esc | .down => .cont { a with panel_focus := .Files, mode := .Normal } []
  | _ => .cont a []

/-- `AppMode::ConfirmDelete` (src/main.rs:810-812). -/
def stepConfirmDelete (fs : Fs) (a : App) (k : KeyEvent) : Step :=
  match k.code with
  | .char c =>
    if c = 'y' then contOf (App.confirm_delete fs a)
    else if c = 'n' then .cont a.cancel_delete []
    else .cont a []
  | _ => .cont a []

/-- `AppMode::Editing` — the address bar (src/main.rs:812-836). -/
def stepEditing (fs : Fs) (a : App) (k : KeyEvent) : Step :=
  match k.code with
  | .char c =>
    .cont { a with address_input := insertCharAt a.address_input a.cursor_position c
                   cursor_position := a.cursor_position + 1 } []
  | .backspace =>
    if 0 < a.cursor_position then
      .cont { a with cursor_position := a.cursor_position - 1
                     address_input := removeCharAt a.address_input (a.cursor_position - 1) } []
    else .cont a []
  | .enter =>
    let a' := if fs.isDir a.address_input then App.update_path fs a a.address_input else a
    .cont { a' with mode := .Normal, panel_focus := .Files } []
  | .esc => .cont { a with mode := .Normal, panel_focus := .Files } []
  | _ => .cont a []

/-- `AppMode::Create` (src/main.rs:836-859). -/
def stepCreate (fs : Fs) (a : App) (k : KeyEvent) : Step :=
  match k.code with
  | .char c => .cont { a with create_input := a.create_input.push c } []
  | .backspace => .cont { a with create_input := strPop a.create_input } []
  | .enter =>
    match createCommit a.path a.create_input with
    | .dirAll p =>
      if fs.createDirAllOk p then
        .cont { a with files := fs.list a.path a.show_hidden, create_input := "", mode := .Normal }
          [.createDirAll p]
      else .panic
    | .file p =>
      if fs.createFileOk p then
        .cont { a with files := fs.list a.path a.show_hidden, create_input := "", mode := .Normal }
          [.createFile p]
      else .panic
  | .esc => .cont { a with create_input := "", mode := .Normal } []
  | _ => .cont a []

/-- `AppMode::Rename` (src/main.rs:859-879). -/
def stepRename (fs : Fs) (a : App) (k : KeyEvent) : Step :=
  match k.code with
  | .char c => .cont { a with rename_input := a.rename_input.push c } []
  | .backspace => .cont { a with rename_input := strPop a.rename_input } []
  | .enter =>
    match a.files[a.selected]? with
    | none => .panic
    | some sel =>
      let oldP := rustJoin a.path sel
      let newP := rustJoin a.path a.rename_input
      if fs.renameOk oldP newP then
        .cont { a with files := fs.list a.path a.show_hidden, rename_input := "", mode := .Normal }
          [.rename oldP newP]
      else .panic
  | .esc => .cont { a with rename_input := "", mode := .Normal } []
  | _ => .cont a []

/-- `AppMode::Filter` (src/main.rs:879-898). -/
def stepFilter (fs : Fs) (a : App) (k : KeyEvent) : Step :=
  match k.code with
  | .char c => .cont { a with filter_input := a.filter_input.push c } []
  | .backspace => .cont { a with filter_input := strPop a.filter_input } []
  | .enter => .cont (App.filter_commit fs a) []
  | .esc =>
    .cont { a with filter_input := "", files := fs.list a.path a.show_hidden, mode := .Normal } []
  | _ => .cont a []

/-- `AppMode::View` (src/main.rs:898-900). -/
def stepView (a : App) (k : KeyEvent) : Step :=
  match k.code with
  | .esc => .cont { a with mode := .Normal } []
  | _ => .cont a []

/-- `AppMode::Edit` (src/main.rs:900-926). -/
def stepEdit (fs : Fs) (a : App) (k : KeyEvent) : Step :=
  match k.code with
  | .char c =>
    if c = 's' && k.ctrl then
      match a.files[a.selected]? with
      | none => .panic
      | some sel =>
        let p := rustJoin a.path sel
        if fs.writeOk p a.edit_content then
          .cont { a with edit_content := "", mode := .Normal } [.writeFile p a.edit_content]
        else .panic
    else .cont { a with edit_content := a.edit_content.push c } []
  | .backspace => .cont { a with edit_content := strPop a.edit_content } []
  | .enter =>
    match a.files[a.selected]? with
    | none => .panic
    | some sel =>
      let p := rustJoin a.path sel
      if fs.writeOk p a.edit_content then
        .cont { a with edit_content := "", mode := .Normal } [.writeFile p a.edit_content]
      else .panic
  | .esc => .cont { a with edit_content := "", mode := .Normal } []
  | _ => .cont a []

/-- `AppMode::CreateDirectory` (src/main.rs:926-944). -/
def stepCreateDirectory (fs : Fs) (a : App) (k : KeyEvent) : Step :=
  match k.code with
  | .char c => .cont { a with create_directory_input := a.create_directory_input.push c } []
  | .backspace => .cont { a with create_directory_input := strPop a.create_directory_input } []
  | .enter =>
    let p := rustJoin a.path a.create_directory_input
    if fs.createDirAllOk p then
      .cont { a with files := fs.list a.path a.show_hidden
                     create_directory_input := ""
                     mode := .Normal } [.createDirAll p]
    else .panic
  | .esc => .cont { a with create_directory_input := "", mode := .Normal } []
  | _ => .cont a []

/-- `AppMode::Move` (src/main.rs:945-964): the destination is the typed
string taken as a path (`PathBuf::from`), not joined to the current
directory. -/
def stepMove (fs : Fs) (a : App) (k : KeyEvent) : Step :=
  match k.code with
  | .char c => .cont { a with move_input := a.move_input.push c } []
  | .backspace => .cont { a with move_input := strPop a.move_input } []
  | .enter =>
    match a.files[a.selected]? with
    | none => .panic
    | some sel =>
      let oldP := rustJoin a.path sel
      if fs.renameOk oldP a.move_input then
        .cont { a with files := fs.list a.path a.show_hidden, move_input := "", mode := .Normal }
          [.rename oldP a.move_input]
      else .panic
  | .esc => .cont { a with move_input := "", mode := .Normal } []
  | _ => .cont a []

/-- `AppMode::Find` (src/main.rs:965-980): Enter has no commit action. -/
def stepFind (a : App) (k : KeyEvent) : Step :=
  match k.code with
  | .char c => .cont { a with find_input := a.find_input.push c } []
  | .backspace => .cont { a with find_input := strPop a.find_input } []
  | .enter => .cont { a with mode := .Normal } []
  | .esc => .cont { a with find_input := "", mode := .Normal } []
  | _ => .cont a []

/-- `AppMode::Replace` (src/main.rs:980-994): Enter has no commit
action. -/
def stepReplace (a : App) (k : KeyEvent) : Step :=
  match k.code with
  | .char c => .cont { a with replace_input := a.replace_input.push c } []
  | .backspace => .cont { a with replace_input := strPop a.replace_input } []
  | .enter => .cont { a with mode := .Normal } []
  | .esc => .cont { a with replace_input := "", mode := .Normal } []
  | _ => .cont a []

/-- One keyboard event through the full `match app.mode` of `run_app`. -/
def step (fs : Fs) (a : App) (k : KeyEvent) : Step :=
  match a.mode with
  | .Normal =>
    match a.panel_focus with
    | .Files => stepNormalFiles fs a k
    | .Actions => stepActions fs a k
    | .TopBarButtons => stepTopBar fs a k
  | .ConfirmDelete => stepConfirmDelete fs a k
  | .Editing => stepEditing fs a k
  | .Create => stepCreate fs a k
  | .Rename => stepRename fs a k
  | .Filter => stepFilter fs a k
  | .View => stepView a k
  | .Edit => stepEdit fs a k
  | .CreateDirectory => stepCreateDirectory fs a k
  | .Move => stepMove fs a k
  | .Find => stepFind a k
  | .Replace => stepReplace a k

/-- Thread one more key through a `Step`, keeping accumulated effects;
a panic or exit absorbs everything after it. -/
def stepK (fs : Fs) (s : Step) (k : KeyEvent) : Step :=
  match s with
  | .cont a effs =>
    match step fs a k with
    | .cont a' e' => .cont a' (effs ++ e')
    | .exit => .exit
    | .panic => .panic
  | s => s

/-- Run a key sequence from a state. -/
def runKeys (fs : Fs) (a : App) (ks : List KeyEvent) : Step :=
  ks.foldl (stepK fs) (.cont a [])

def Step.app? : Step → Option App
  | .cont a _ => some a
  | _ => none

def Step.effects : Step → List FsEffect
  | .cont _ e => e
  | _ => []

end Karu
namespace Karu

/-! ## The preview pane (`render_preview`, src/main.rs:549-681) -/

/-- UTF-8 byte length of one character (Rust `char::len_utf8`). -/
def charUtf8Len (c : Char) : Nat :=
  if c.toNat < 128 then 1
  else if c.toNat < 2048 then 2
  else if c.toNat < 65536 then 3
  else 4

/-- Rust `str::len`: byte length of the UTF-8 encoding. -/
def utf8Len (s : String) : Nat := (s.data.map charUtf8Len).sum

/-- Rust `&line[0..k]`: the characters making up exactly the first `k`
bytes of the UTF-8 encoding, or `none` — a panic — when `k` is not a
character boundary or exceeds the byte length. -/
def sliceBytes (k : Nat) : List Char → Option (List Char)
  | [] => if k = 0 then some [] else none
  | c :: rest =>
    if k = 0 then some []
    else if charUtf8Len c ≤ k then (sliceBytes (k - charUtf8Len c) rest).map (c :: ·)
    else none

/-- The per-line truncation of the text branch (src/main.rs:621-631):
a line longer than `max_width` bytes is sliced to its first
`max_width - 3` bytes — a byte slice that panics (`none`) when the cut
lands inside a multi-byte character (no ellipsis is appended by the
source). -/
def truncLine (maxW : Nat) (line : String) : Option String :=
  if maxW < utf8Len line then (sliceBytes (maxW - 3) line.data).map fun l => (⟨l⟩ : String)
  else some line

/-- The truncation is byte-faithful: cutting the 10-byte line `"ααααα"`
at width 8 slices its first 5 bytes, which lands mid-character and
panics, exactly as `&line[0..5]` does in Rust. -/
theorem truncLine_mid_char_panics :
    truncLine 8 (String.mk (List.replicate 5 'α')) = none := by decide

/-- The part of a file name after its last `'.'` (ignoring a dot in
first position), for `Path::extension`. -/
def afterLastDot : List Char → Option (List Char)
  | [] => none
  | c :: rest =>
    match afterLastDot rest with
    | some e => some e
    | none => if c = '.' then some rest else none

/-- `Path::extension()`. -/
def rustExtension (p : String) : Option String :=
  match rustFileName p with
  | none => none
  | some n =>
    match n.data with
    | [] => none
    | _ :: rest =>
      match afterLastDot rest with
      | some e => some ⟨e⟩
      | none => none

def imageExts : List String := ["png", "jpg", "jpeg", "gif", "bmp", "ico", "tiff", "webp"]

/-- `is_actual_image` (src/main.rs:638-646); the source lowercases the
extension with `to_lowercase()`, kept abstract as `low`. -/
def is_actual_imageWith (low : String → String) (p : String) : Bool :=
  match rustExtension p with
  | some e => imageExts.contains (low e)
  | none => false

/-- `is_media` (src/main.rs:647-667), lowercasing kept abstract. -/
def is_mediaWith (low : String → String) (p : String) : Bool :=
  match rustExtension p with
  | some e => (imageExts ++ ["mp4", "mkv", "avi", "mov", "webm"]).contains (low e)
  | none => false

def is_actual_image (p : String) : Bool := is_actual_imageWith asciiLowerString p

def is_media (p : String) : Bool := is_mediaWith asciiLowerString p

end Karu
namespace Karu

/-! ## Concrete oracles for evaluations -/

/-- A benign oracle: empty directories, every fallible call succeeds,
every read fails softly. -/
def fsBase : Fs :=
  { home := "/home/user"
    dirEntries := fun _ => []
    isDir := fun _ => false
    trashOk := fun _ => true
    copyOk := fun _ _ => true
    createDirAllOk := fun _ => true
    createFileOk := fun _ => true
    removeFileOk := fun _ => true
    removeDirAllOk := fun _ => true
    renameOk := fun _ _ => true
    writeOk := fun _ _ => true
    readToString := fun _ => none
    metadataLen := fun _ => none
    readBytes := fun _ => none
    decodeOk := fun _ => false
    printOk := true }

/-! ## Listing structure (claim C3) -/

theorem get_files_length_pos (es : List RawEntry) (sh : Bool) : 0 < (get_files es sh).length := by
  simp [get_files]

theorem get_filesWith_eq (low : String → String) (es : List RawEntry) (sh : Bool) :
    get_filesWith low es sh =
      ".." ::
        (((sortEntriesWith low es).filter fun e => keepB sh e && e.isDir && startsDot e.name).map RawEntry.name
          ++ ((sortEntriesWith low es).filter fun e => keepB sh e && e.isDir && !startsDot e.name).map RawEntry.name
          ++ ((sortEntriesWith low es).filter fun e => keepB sh e && !e.isDir && startsDot e.name).map RawEntry.name
          ++ ((sortEntriesWith low es).filter fun e => keepB sh e && !e.isDir && !startsDot e.name).map RawEntry.name) := by
  simp [get_filesWith, partitionGroups_eq]

theorem group_pairwiseWith (low : String → String) (es : List RawEntry) (p : RawEntry → Bool)
    (hconst : ∀ a b, p a = true → p b = true → startsDot a.name = startsDot b.name) :
    (((sortEntriesWith low es).filter p).map RawEntry.name).Pairwise
      fun x y => withinGroupLeWith low x y = true := by
  rw [List.pairwise_map]
  have hs0 : (sortEntriesWith low es).Pairwise (entryRWith low) := sortEntriesWith_sorted low es
  have hs : ((sortEntriesWith low es).filter p).Pairwise (entryRWith low) :=
    hs0.sublist (List.filter_sublist _)
  refine hs.imp_of_mem ?_
  intro a b ha hb hr
  have hpa := (List.mem_filter.mp ha).2
  have hpb := (List.mem_filter.mp hb).2
  rw [← entryLeWith_eq_withinGroup low (hconst a b hpa hpb)]
  exact hr

/-- C3 (amended): for every lowercasing function `low` — hence in
particular for Rust's real `str::to_lowercase` — every listing starts
with the synthetic `".."` and the rest splits into hidden directories,
normal directories, hidden files, normal files, in that order,
complete for the kept entries; but inside each group the order is
`withinGroupLeWith low` — names containing a non-ASCII character
first, then case-insensitive comparison of the `low`-lowercased
names — not the plain case-insensitive order the claim states.
(`withinGroupLeWith` holds in both directions on lowercase ties, so
the `Pairwise` conclusion is insensitive to how the stable sort leaves
tied names.) -/
theorem C3_listing_grouped (low : String → String) (es : List RawEntry) (sh : Bool) :
    ∃ hd nd hf nf,
      get_filesWith low es sh = ".." :: (hd ++ nd ++ hf ++ nf) ∧
      (∀ n ∈ hd, startsDot n = true ∧ ∃ e ∈ es, e.name = n ∧ e.isDir = true) ∧
      (∀ n ∈ nd, startsDot n = false ∧ ∃ e ∈ es, e.name = n ∧ e.isDir = true) ∧
      (∀ n ∈ hf, startsDot n = true ∧ ∃ e ∈ es, e.name = n ∧ e.isDir = false) ∧
      (∀ n ∈ nf, startsDot n = false ∧ ∃ e ∈ es, e.name = n ∧ e.isDir = false) ∧
      hd.Pairwise (fun x y => withinGroupLeWith low x y = true) ∧
      nd.Pairwise (fun x y => withinGroupLeWith low x y = true) ∧
      hf.Pairwise (fun x y => withinGroupLeWith low x y = true) ∧
      nf.Pairwise (fun x y => withinGroupLeWith low x y = true) ∧
      (∀ e ∈ es, keepB sh e = true → e.name ∈ hd ++ nd ++ hf ++ nf) := by
  refine ⟨_, _, _, _, get_filesWith_eq low es sh, ?_, ?_, ?_, ?_, ?_, ?_, ?_, ?_, ?_⟩
  · intro n hn
    obtain ⟨e, he, rfl⟩ := List.mem_map.mp hn
    obtain ⟨hes, hp⟩ := List.mem_filter.mp he
    simp only [Bool.and_eq_true] at hp
    exact ⟨hp.2, e, (sortEntriesWith_perm low es).mem_iff.mp hes, rfl, hp.1.2⟩
  · intro n hn
    obtain ⟨e, he, rfl⟩ := List.mem_map.mp hn
    obtain ⟨hes, hp⟩ := List.mem_filter.mp he
    simp only [Bool.and_eq_true, Bool.not_eq_true'] at hp
    exact ⟨hp.2, e, (sortEntriesWith_perm low es).mem_iff.mp hes, rfl, hp.1.2⟩
  · intro n hn
    obtain ⟨e, he, rfl⟩ := List.mem_map.mp hn
    obtain ⟨hes, hp⟩ := List.mem_filter.mp he
    simp only [Bool.and_eq_true, Bool.not_eq_true'] at hp
    exact ⟨hp.2, e, (sortEntriesWith_perm low es).mem_iff.mp hes, rfl, hp.1.2⟩
  · intro n hn
    obtain ⟨e, he, rfl⟩ := List.mem_map.mp hn
    obtain ⟨hes, hp⟩ := List.mem_filter.mp he
    simp only [Bool.and_eq_true, Bool.not_eq_true'] at hp
    exact ⟨hp.2, e, (sortEntriesWith_perm low es).mem_iff.mp hes, rfl, hp.1.2⟩
  · refine group_pairwiseWith low es _ fun a b ha hb => ?_
    simp only [Bool.and_eq_true] at ha hb
    rw [ha.2, hb.2]
  · refine group_pairwiseWith low es _ fun a b ha hb => ?_
    simp only [Bool.and_eq_true, Bool.not_eq_true'] at ha hb
    rw [ha.2, hb.2]
  · refine group_pairwiseWith low es _ fun a b ha hb => ?_
    simp only [Bool.and_eq_true] at ha hb
    rw [ha.2, hb.2]
  · refine group_pairwiseWith low es _ fun a b ha hb => ?_
    simp only [Bool.and_eq_true, Bool.not_eq_true'] at ha hb
    rw [ha.2, hb.2]
  · intro e hes hkeep
    have hs : e ∈ sortEntriesWith low es := (sortEntriesWith_perm low es).mem_iff.mpr hes
    simp only [List.mem_append]
    cases hd : e.isDir <;> cases hsd : startsDot e.name
    · exact Or.inr
        (List.mem_map.mpr ⟨e, List.mem_filter.mpr ⟨hs, by simp [hkeep, hd, hsd]⟩, rfl⟩)
    · exact Or.inl (Or.inr
        (List.mem_map.mpr ⟨e, List.mem_filter.mpr ⟨hs, by simp [hkeep, hd, hsd]⟩, rfl⟩))
    · exact Or.inl (Or.inl (Or.inr
        (List.mem_map.mpr ⟨e, List.mem_filter.mpr ⟨hs, by simp [hkeep, hd, hsd]⟩, rfl⟩)))
    · exact Or.inl (Or.inl (Or.inl
        (List.mem_map.mpr ⟨e, List.mem_filter.mpr ⟨hs, by simp [hkeep, hd, hsd]⟩, rfl⟩)))

/-- C3 (counterexample): in a directory with the two plain (non-hidden,
non-directory) files `"b"` and `"á"`, both land in the same group
(normal files) and the listing puts `"á"` first because the comparator
orders names containing non-ASCII characters before all-ASCII names —
but case-insensitively `"á" ≤ "b"` is false, so the group is not
case-insensitively sorted as the claim states.  Both names are fixed
points of `str::to_lowercase` (`'á'` is already lowercase, `"b"` is
lowercase ASCII), so on them the ASCII instance `asciiLowerString`
agrees with the program's lowercasing: this evaluation, stated for
both the abstract-instance listing and the executable `get_files`, is
the program's output, and `ciLeWith asciiLowerString` here coincides
with the true case-insensitive name order. -/
theorem C3_counterexample :
    get_filesWith asciiLowerString [⟨"b", false⟩, ⟨"á", false⟩] true = ["..", "á", "b"] ∧
    get_files [⟨"b", false⟩, ⟨"á", false⟩] true = ["..", "á", "b"] ∧
    ciLeWith asciiLowerString "á" "b" = false ∧
    ciLe "á" "b" = false ∧
    startsDot "á" = startsDot "b" ∧
    hasNonAscii "á" = true ∧ hasNonAscii "b" = false := by decide

end Karu
namespace Karu

/-! ## Navigation history (claim C7) -/

theorem update_path_spec (fs : Fs) (a : App) (p : String)
    (h : a.history_index < a.history.length) :
    (App.update_path fs a p).history = a.history.take (a.history_index + 1) ++ [p] ∧
    (App.update_path fs a p).history_index = a.history_index + 1 ∧
    (App.update_path fs a p).path = p ∧
    (App.update_path fs a p).selected = 0 ∧
    (App.update_path fs a p).files = fs.list p a.show_hidden ∧
    (App.update_path fs a p).show_hidden = a.show_hidden ∧
    (App.update_path fs a p).history_index < (App.update_path fs a p).history.length := by
  have hTlen : (a.history.take (a.history_index + 1)).length = a.history_index + 1 := by
    rw [List.length_take]; omega
  have hhist : (App.update_path fs a p).history = a.history.take (a.history_index + 1) ++ [p] := by
    simp only [App.update_path]
    by_cases hc : a.history_index < a.history.length - 1
    · simp [hc]
    · simp [hc, List.take_of_length_le (by omega : a.history.length ≤ a.history_index + 1)]
  have hidx : (App.update_path fs a p).history_index = a.history_index + 1 := by
    simp only [App.update_path]
    by_cases hc : a.history_index < a.history.length - 1
    · simp [hc, List.length_take]; omega
    · simp [hc]; omega
  refine ⟨hhist, hidx, ?_, ?_, ?_, ?_, ?_⟩
  · simp [App.update_path]
  · simp [App.update_path]
  · simp [App.update_path]
  · simp [App.update_path]
  · rw [hhist, hidx]
    simp [hTlen]

theorem go_back_spec (fs : Fs) (a : App) (h : a.history_index < a.history.length) :
    (a.history_index = 0 → App.go_back fs a = some a) ∧
    (0 < a.history_index → ∃ q, a.history[a.history_index - 1]? = some q ∧
      App.go_back fs a = some { a with history_index := a.history_index - 1
                                       path := q
                                       files := fs.list q a.show_hidden
                                       selected := 0 }) := by
  constructor
  · intro h0; simp [App.go_back, h0]
  · intro h0
    have hlt : a.history_index - 1 < a.history.length := by omega
    refine ⟨a.history[a.history_index - 1], List.getElem?_eq_getElem hlt, ?_⟩
    simp [App.go_back, h0, List.getElem?_eq_getElem hlt]

theorem go_forward_spec (fs : Fs) (a : App) (h : a.history_index < a.history.length) :
    (a.history_index = a.history.length - 1 → App.go_forward fs a = some a) ∧
    (a.history_index < a.history.length - 1 → ∃ q, a.history[a.history_index + 1]? = some q ∧
      App.go_forward fs a = some { a with history_index := a.history_index + 1
                                          path := q
                                          files := fs.list q a.show_hidden
                                          selected := 0 }) := by
  constructor
  · intro h0
    have hc : ¬ a.history_index < a.history.length - 1 := by omega
    simp [App.go_forward, hc]
  · intro h0
    have hlt : a.history_index + 1 < a.history.length := by omega
    refine ⟨a.history[a.history_index + 1], List.getElem?_eq_getElem hlt, ?_⟩
    simp [App.go_forward, h0, List.getElem?_eq_getElem hlt]

theorem go_back_wf (fs : Fs) (a : App) (h : a.history_index < a.history.length) :
    ∀ r, App.go_back fs a = some r → r.history_index < r.history.length := by
  intro r hr
  by_cases h0 : 0 < a.history_index
  · obtain ⟨q, hq, he⟩ := (go_back_spec fs a h).2 h0
    rw [he] at hr
    cases hr
    simpa using by omega
  · have h0' : a.history_index = 0 := by omega
    rw [(go_back_spec fs a h).1 h0'] at hr
    cases hr
    exact h

theorem go_forward_wf (fs : Fs) (a : App) (h : a.history_index < a.history.length) :
    ∀ r, App.go_forward fs a = some r → r.history_index < r.history.length := by
  intro r hr
  by_cases h0 : a.history_index < a.history.length - 1
  · obtain ⟨q, hq, he⟩ := (go_forward_spec fs a h).2 h0
    rw [he] at hr
    cases hr
    simpa using by omega
  · have h0' : a.history_index = a.history.length - 1 := by omega
    rw [(go_forward_spec fs a h).1 h0'] at hr
    cases hr
    exact h

end Karu
namespace Karu


theorem go_back_proj (fs : Fs) (a : App) (h : a.history_index < a.history.length)
    (h0 : 0 < a.history_index) :
    ∃ r, App.go_back fs a = some r ∧ r.history = a.history ∧
      r.history_index = a.history_index - 1 ∧
      a.history[a.history_index - 1]? = some r.path ∧
      r.show_hidden = a.show_hidden := by
  obtain ⟨q, hq, he⟩ := (go_back_spec fs a h).2 h0
  exact ⟨_, he, by simp, by simp, by simpa using hq, by simp⟩

theorem history_scenario (fs : Fs) (a : App) (h : a.history_index < a.history.length)
    (pa pb pc pd : String) :
    ∃ s5,
      (App.go_back fs (App.update_path fs (App.update_path fs (App.update_path fs a pa) pb) pc)).bind
          (App.go_back fs) = some s5 ∧
      s5.path = pa ∧
      s5.history[s5.history_index]? = some pa ∧
      (App.update_path fs s5 pd).history = a.history.take (a.history_index + 1) ++ [pa, pd] ∧
      App.go_forward fs (App.update_path fs s5 pd) = some (App.update_path fs s5 pd) := by
  have hTlen : (a.history.take (a.history_index + 1)).length = a.history_index + 1 := by
    rw [List.length_take]; omega
  obtain ⟨h1hist, h1idx, -, -, -, -, h1wf⟩ := update_path_spec fs a pa h
  obtain ⟨h2hist, h2idx, -, -, -, -, h2wf⟩ := update_path_spec fs _ pb h1wf
  obtain ⟨h3hist, h3idx, -, -, -, -, h3wf⟩ := update_path_spec fs _ pc h2wf
  have e2 : (App.update_path fs (App.update_path fs a pa) pb).history =
      a.history.take (a.history_index + 1) ++ [pa, pb] := by
    rw [h2hist, h1idx, h1hist,
      List.take_of_length_le (by simp [hTlen])]
    simp
  have e3 : (App.update_path fs (App.update_path fs (App.update_path fs a pa) pb) pc).history =
      a.history.take (a.history_index + 1) ++ [pa, pb, pc] := by
    rw [h3hist, h2idx, h1idx, e2,
      List.take_of_length_le (by simp [hTlen])]
    simp
  have hidx3 : (App.update_path fs (App.update_path fs (App.update_path fs a pa) pb) pc).history_index =
      a.history_index + 3 := by
    rw [h3idx, h2idx, h1idx]
  obtain ⟨s4, hs4, s4hist, s4idx, s4path, s4sh⟩ :=
    go_back_proj fs _ h3wf (by rw [hidx3]; omega)
  have s4wf : s4.history_index < s4.history.length := by
    rw [s4hist, s4idx, hidx3, e3]
    simp [hTlen]
  obtain ⟨s5, hs5, s5hist, s5idx, s5path, s5sh⟩ :=
    go_back_proj fs s4 s4wf (by rw [s4idx, hidx3]; omega)
  have s5pathv : s5.path = pa := by
    rw [s4hist, s4idx, hidx3, e3] at s5path
    rw [show a.history_index + 3 - 1 - 1 = a.history_index + 1 from by omega,
      List.getElem?_append_right (by rw [hTlen])] at s5path
    rw [hTlen, show a.history_index + 1 - (a.history_index + 1) = 0 from by omega] at s5path
    simpa using s5path.symm
  have s5histv : s5.history = a.history.take (a.history_index + 1) ++ [pa, pb, pc] := by
    rw [s5hist, s4hist, e3]
  have s5idxv : s5.history_index = a.history_index + 1 := by
    rw [s5idx, s4idx, hidx3]
    omega
  have s5wf : s5.history_index < s5.history.length := by
    rw [s5histv, s5idxv]
    simp [hTlen]
  refine ⟨s5, by rw [hs4]; simpa using hs5, s5pathv, ?_, ?_, ?_⟩
  · rw [s5histv, s5idxv, List.getElem?_append_right (by rw [hTlen])]
    rw [hTlen, show a.history_index + 1 - (a.history_index + 1) = 0 from by omega]
    simp
  · obtain ⟨h6hist, -, -, -, -, -, -⟩ := update_path_spec fs s5 pd s5wf
    rw [h6hist, s5histv, s5idxv,
      List.take_append_eq_append_take, List.take_of_length_le (by rw [hTlen]; omega)]
    rw [hTlen, show a.history_index + 1 + 1 - (a.history_index + 1) = 1 from by omega]
    simp
  · obtain ⟨h6hist, h6idx, -, -, -, -, h6wf⟩ := update_path_spec fs s5 pd s5wf
    have hlen6 : (App.update_path fs s5 pd).history.length = a.history_index + 3 := by
      rw [h6hist, s5histv, s5idxv, List.length_append, List.length_take]
      simp [hTlen]
    exact (go_forward_spec fs _ h6wf).1 (by rw [h6idx, s5idxv, hlen6]; omega)

/-- C7 (confirmed): `update_path` (the history push) truncates everything
past the current index, appends the new path and moves the index to the
new tail; `go_back` is a no-op at index 0 and otherwise decrements;
`go_forward` is a no-op at the tail and otherwise increments; after
`push a; push b; push c; back; back` the current path is `a`, and a
subsequent `push d` discards `b` and `c` so that `forward` is a no-op;
and the index always stays within bounds. -/
theorem C7_history_ops (fs : Fs) (a : App) (h : a.history_index < a.history.length) :
    (∀ p, (App.update_path fs a p).history = a.history.take (a.history_index + 1) ++ [p] ∧
          (App.update_path fs a p).history_index = a.history_index + 1 ∧
          (App.update_path fs a p).path = p ∧
          (App.update_path fs a p).history_index < (App.update_path fs a p).history.length) ∧
    (a.history_index = 0 → App.go_back fs a = some a) ∧
    (0 < a.history_index → ∃ q, a.history[a.history_index - 1]? = some q ∧
      App.go_back fs a = some { a with history_index := a.history_index - 1
                                       path := q
                                       files := fs.list q a.show_hidden
                                       selected := 0 }) ∧
    (a.history_index = a.history.length - 1 → App.go_forward fs a = some a) ∧
    (a.history_index < a.history.length - 1 → ∃ q, a.history[a.history_index + 1]? = some q ∧
      App.go_forward fs a = some { a with history_index := a.history_index + 1
                                          path := q
                                          files := fs.list q a.show_hidden
                                          selected := 0 }) ∧
    (∀ r, App.go_back fs a = some r → r.history_index < r.history.length) ∧
    (∀ r, App.go_forward fs a = some r → r.history_index < r.history.length) ∧
    (∀ pa pb pc pd, ∃ s5,
      (App.go_back fs (App.update_path fs (App.update_path fs (App.update_path fs a pa) pb) pc)).bind
          (App.go_back fs) = some s5 ∧
      s5.path = pa ∧
      s5.history[s5.history_index]? = some pa ∧
      (App.update_path fs s5 pd).history = a.history.take (a.history_index + 1) ++ [pa, pd] ∧
      App.go_forward fs (App.update_path fs s5 pd) = some (App.update_path fs s5 pd)) := by
  refine ⟨fun p => ?_, (go_back_spec fs a h).1, (go_back_spec fs a h).2,
    (go_forward_spec fs a h).1, (go_forward_spec fs a h).2,
    go_back_wf fs a h, go_forward_wf fs a h,
    fun pa pb pc pd => history_scenario fs a h pa pb pc pd⟩
  obtain ⟨h1, h2, h3, -, -, -, h7⟩ := update_path_spec fs a p h
  exact ⟨h1, h2, h3, h7⟩

/-- Witness for C7 at a concrete state. -/
theorem C7_witness :
    (App.update_path fsBase (App.new fsBase "/r") "/x").history = ["/r", "/x"] := by
  have hmain := C7_history_ops fsBase (App.new fsBase "/r") (by decide)
  rw [(hmain.1 "/x").1]
  decide

/-! ## Opening entries and navigation (claims C6, C4) -/

theorem update_path_current (fs : Fs) (a : App) (p : String) :
    (App.update_path fs a p).history[(App.update_path fs a p).history_index]? = some p := by
  simp only [App.update_path]
  generalize (if a.history_index < a.history.length - 1 then
    a.history.take (a.history_index + 1) else a.history) = l
  rw [List.length_append]
  simp only [List.length_cons, List.length_nil]
  rw [List.getElem?_append_right (by omega)]
  simp

theorem update_path_sel (fs : Fs) (a : App) (p : String) :
    (App.update_path fs a p).selected = 0 ∧
    (App.update_path fs a p).files = fs.list p a.show_hidden := by
  simp [App.update_path]

theorem Fs.list_length_pos (fs : Fs) (p : String) (sh : Bool) : 0 < (fs.list p sh).length :=
  get_files_length_pos _ _

/-- C6 (amended): opening a selected directory entry other than `".."`
goes through `update_path`, so afterwards the history's current entry
is the new path; but opening the synthetic `".."` entry changes `path`
and re-lists directly, leaving `history` and `history_index` untouched
(no push), so the history's current entry stays the old path. -/
theorem C6_open_directory (fs : Fs) (a : App) :
    (a.files[a.selected]? = some ".." →
      App.open_selected fs a =
        some ({ a with path := (rustParent a.path).getD a.path
                       files := fs.list ((rustParent a.path).getD a.path) a.show_hidden
                       selected := 0 }, [])) ∧
    (∀ n, a.files[a.selected]? = some n → n ≠ ".." →
      fs.isDir (normalize_path fs.home (rustJoin a.path n)) = true →
      App.open_selected fs a =
        some (App.update_path fs a (normalize_path fs.home (rustJoin a.path n)), []) ∧
      (App.update_path fs a (normalize_path fs.home (rustJoin a.path n))).history[(App.update_path fs a (normalize_path fs.home (rustJoin a.path n))).history_index]? =
        some (normalize_path fs.home (rustJoin a.path n))) := by
  constructor
  · intro h
    simp [App.open_selected, h]
  · intro n h hne hdir
    refine ⟨?_, update_path_current fs a _⟩
    simp [App.open_selected, h, hne, hdir]

/-- C6 (counterexample): with `/a/b` listed empty, the selected entry is
the synthetic `".."`; opening it (a directory entry by the claim's own
parenthetical) moves `path` to `/a` while the history still holds only
`/a/b`, so `current()` is `/a/b ≠ /a` — nothing was pushed. -/
theorem C6_counterexample :
    ((App.open_selected fsBase (App.new fsBase "/a/b")).map fun r =>
      (r.1.path, r.1.history, r.1.history_index)) = some ("/a", ["/a/b"], 0) ∧
    ("/a/b" : String) ≠ "/a" := by decide

/-- Witness for C6 at a concrete state (the `".."` branch). -/
theorem C6_witness :
    App.open_selected fsBase (App.new fsBase "/a/b") =
      some ({ App.new fsBase "/a/b" with
               path := (rustParent (App.new fsBase "/a/b").path).getD (App.new fsBase "/a/b").path
               files := fsBase.list ((rustParent (App.new fsBase "/a/b").path).getD (App.new fsBase "/a/b").path) (App.new fsBase "/a/b").show_hidden
               selected := 0 }, []) :=
  (C6_open_directory fsBase (App.new fsBase "/a/b")).1 (by decide)

/-- C4 (amended): selection movement is clamped, and every operation
that re-lists and resets the selection to 0 keeps it in bounds because
every `get_files` listing starts with `".."` and is therefore
non-empty.  But the Filter commit re-lists and then `retain`s every
name containing the typed substring — `".."` included — and only
resets the selection to 0: when no name matches, the listing becomes
empty and index 0 is outside `[0, len-1]` (the claim's in-bounds
guarantee fails there; commits such as Rename/Move/Paste/Create also
re-list without resetting the stale selection and are not covered by
this bound). -/
theorem C4_selection_clamped (fs : Fs) (a : App) (h : a.selected < a.files.length) :
    ((a.select_next).selected < a.files.length ∧ (a.select_next).files = a.files) ∧
    ((a.select_previous).selected < a.files.length ∧ (a.select_previous).files = a.files) ∧
    (∀ r e, App.open_selected fs a = some (r, e) → r.selected < r.files.length) ∧
    (∀ r, App.go_back fs a = some r → r.selected < r.files.length) ∧
    (∀ r, App.go_forward fs a = some r → r.selected < r.files.length) ∧
    ((App.go_to_parent_directory fs a).selected < (App.go_to_parent_directory fs a).files.length) ∧
    ((App.toggle_hidden_files fs a).selected < (App.toggle_hidden_files fs a).files.length) ∧
    (∀ r e, App.confirm_delete fs a = some (r, e) → r.selected < r.files.length) ∧
    (∀ p, (App.update_path fs a p).selected < (App.update_path fs a p).files.length) ∧
    ((App.filter_commit fs a).selected = 0 ∧
      (App.filter_commit fs a).files =
        (fs.list a.path a.show_hidden).filter fun f => rustContains f a.filter_input) := by
  have hup : ∀ p, (App.update_path fs a p).selected < (App.update_path fs a p).files.length := by
    intro p
    rw [(update_path_sel fs a p).1, (update_path_sel fs a p).2]
    exact Fs.list_length_pos fs _ _
  refine ⟨⟨?_, ?_⟩, ⟨?_, ?_⟩, ?_, ?_, ?_, ?_, ?_, ?_, hup, ⟨rfl, rfl⟩⟩
  · simp only [App.select_next]
    split_ifs with hc
    · show a.selected + 1 < a.files.length
      omega
    · exact h
  · simp only [App.select_next]
    split_ifs <;> rfl
  · simp only [App.select_previous]
    split_ifs with hc
    · show a.selected - 1 < a.files.length
      omega
    · exact h
  · simp only [App.select_previous]
    split_ifs <;> rfl
  · intro r e hr
    cases hsel : a.files[a.selected]? with
    | none => simp [App.open_selected, hsel] at hr
    | some sel =>
      simp only [App.open_selected, hsel, Option.bind_eq_bind, Option.some_bind, Option.pure_def] at hr
      split_ifs at hr with h1 h2
      · simp only [Option.some.injEq, Prod.mk.injEq] at hr
        obtain ⟨rfl, rfl⟩ := hr
        simpa using Fs.list_length_pos fs _ _
      · simp only [Option.some.injEq, Prod.mk.injEq] at hr
        obtain ⟨rfl, rfl⟩ := hr
        exact hup _
      · simp only [Option.some.injEq, Prod.mk.injEq] at hr
        obtain ⟨rfl, rfl⟩ := hr
        exact h
  · intro r hr
    simp only [App.go_back] at hr
    split_ifs at hr with h0
    · cases hq : a.history[a.history_index - 1]? with
      | none => rw [hq] at hr; simp at hr
      | some q =>
        rw [hq] at hr
        simp only [Option.bind_eq_bind, Option.some_bind, Option.pure_def, Option.some.injEq] at hr
        subst hr
        simpa using Fs.list_length_pos fs _ _
    · simp only [Option.pure_def, Option.some.injEq] at hr
      subst hr
      exact h
  · intro r hr
    simp only [App.go_forward] at hr
    split_ifs at hr with h0
    · cases hq : a.history[a.history_index + 1]? with
      | none => rw [hq] at hr; simp at hr
      | some q =>
        rw [hq] at hr
        simp only [Option.bind_eq_bind, Option.some_bind, Option.pure_def, Option.some.injEq] at hr
        subst hr
        simpa using Fs.list_length_pos fs _ _
    · simp only [Option.pure_def, Option.some.injEq] at hr
      subst hr
      exact h
  · simp only [App.go_to_parent_directory]
    cases hp : rustParent a.path with
    | none => exact h
    | some p => exact hup p
  · simpa [App.toggle_hidden_files] using Fs.list_length_pos fs _ _
  · intro r e hr
    cases hsel : a.files[a.selected]? with
    | none => simp [App.confirm_delete, hsel] at hr
    | some sel =>
      simp only [App.confirm_delete, hsel, Option.bind_eq_bind, Option.some_bind, Option.pure_def] at hr
      split_ifs at hr with h1
      · simp only [Option.some.injEq, Prod.mk.injEq] at hr
        obtain ⟨rfl, rfl⟩ := hr
        simpa using Fs.list_length_pos fs _ _

def fsC4 : Fs := { fsBase with dirEntries := fun p => if p = "/r" then [⟨"a", false⟩] else [] }

/-- C4 (counterexample): from the start state in `/r` (listing
`["..", "a"]`), press `f` (enter Filter mode), type `q`, press Enter:
the commit re-lists, retains only names containing `"q"` — none, not
even the synthetic `".."` — and resets the selection to 0.  The
resulting reachable state has an empty listing, so no index lies
within `[0, len-1]` and `selected_index = 0` is out of bounds. -/
theorem C4_counterexample :
    ((runKeys fsC4 (App.new fsC4 "/r")
        [{ code := .char 'f' }, { code := .char 'q' }, { code := .enter }]).app?.map
      fun st => (st.files, st.selected, decide (st.selected < st.files.length))) =
      some ([], 0, false) := by decide

/-- Witness for C4 at a concrete state. -/
theorem C4_witness :
    ((App.new fsC4 "/r").select_next).selected < (App.new fsC4 "/r").files.length :=
  (C4_selection_clamped fsC4 (App.new fsC4 "/r") (by decide)).1.1

/-! ## Clipboard semantics (claims C5, C2, C1) -/

theorem pasteChildren_copy_only (fs : Fs) (fr dst : String) :
    ∀ l es, pasteChildren fs fr dst l = some es →
      ∀ e ∈ es, ∃ s d, e = FsEffect.copyFile s d := by
  intro l
  induction l with
  | nil =>
    intro es hes e he
    simp only [pasteChildren, Option.some.injEq] at hes
    subst hes
    simp at he
  | cons c rest ih =>
    intro es hes e he
    simp only [pasteChildren, Option.bind_eq_bind] at hes
    cases hn : rustFileName (rustJoin fr c.name) with
    | none => rw [hn] at hes; simp at hes
    | some n =>
      rw [hn] at hes
      simp only [Option.some_bind] at hes
      split_ifs at hes with hc
      cases hrest : pasteChildren fs fr dst rest with
      | none => rw [hrest] at hes; simp at hes
      | some es2 =>
        rw [hrest] at hes
        simp only [Option.some_bind, Option.pure_def, Option.some.injEq] at hes
        subst hes
        rcases List.mem_cons.mp he with rfl | he2
        · exact ⟨_, _, rfl⟩
        · exact ih es2 hrest e he2

/-- C5 (amended): `copy_selected` stores the joined path in the
clipboard and changes nothing else — no filesystem effect — but it
does NOT reset `is_cut`; a paste performs no removal exactly when
`is_cut` is still false, so an earlier un-pasted cut makes the paste
after a copy delete the copied source. -/
theorem C5_copy_semantics (fs : Fs) (a : App) (n : String)
    (h : a.files[a.selected]? = some n) :
    App.copy_selected a = some { a with clipboard := some (rustJoin a.path n) } ∧
    (∀ r, App.copy_selected a = some r → r.is_cut = a.is_cut) ∧
    (a.is_cut = false → ∀ r effs, App.paste fs a = some (r, effs) →
      ∀ e ∈ effs, (∀ p, e ≠ FsEffect.removeFile p) ∧ (∀ p, e ≠ FsEffect.removeDirAll p)) := by
  have h1 : App.copy_selected a = some { a with clipboard := some (rustJoin a.path n) } := by
    simp [App.copy_selected, h]
  refine ⟨h1, ?_, ?_⟩
  · intro r hr
    rw [h1] at hr
    simp only [Option.some.injEq] at hr
    subst hr
    rfl
  · intro hcut r effs hr e he
    unfold App.paste at hr
    cases hclip : a.clipboard with
    | none =>
      rw [hclip] at hr
      simp only [Option.some.injEq, Prod.mk.injEq] at hr
      obtain ⟨rfl, rfl⟩ := hr
      simp at he
    | some fr =>
      rw [hclip] at hr
      simp only [Option.bind_eq_bind] at hr
      cases hn : rustFileName fr with
      | none => rw [hn] at hr; simp at hr
      | some m =>
        rw [hn] at hr
        simp only [Option.some_bind, hcut, Bool.false_eq_true, if_false] at hr
        split_ifs at hr with hdir hmk hcp <;>
          first
          | (cases hch : pasteChildren fs fr (rustJoin a.path m) (fs.dirEntries fr) with
             | none => rw [hch] at hr; simp at hr
             | some es2 =>
               rw [hch] at hr
               simp only [Option.bind_eq_bind, Option.some_bind, Option.pure_def,
                 Option.some.injEq, Prod.mk.injEq] at hr
               obtain ⟨rfl, rfl⟩ := hr
               rcases List.mem_cons.mp he with rfl | he2
               · exact ⟨fun p => by simp, fun p => by simp⟩
               · obtain ⟨s, d, rfl⟩ := pasteChildren_copy_only fs fr _ _ es2 hch e he2
                 exact ⟨fun p => by simp, fun p => by simp⟩)
          | (simp only [Option.bind_eq_bind, Option.pure_def, Option.some_bind, Option.some.injEq,
               Prod.mk.injEq] at hr
             obtain ⟨rfl, rfl⟩ := hr
             rcases List.mem_cons.mp he with rfl | he2
             · exact ⟨fun p => by simp, fun p => by simp⟩
             · simp at he2)
          | (exact absurd hr (by simp))

def fsC5 : Fs :=
  { fsBase with dirEntries := fun p => if p = "/r" then [⟨"a", false⟩, ⟨"b", false⟩] else [] }

/-- C5 (counterexample): cut `a`, then copy `b`, then paste: the copy
left `is_cut = true` (set by the earlier cut), so the paste removes
`/r/b` — the source of the copy — contradicting "a paste after a copy
never removes the source, even if a cut was issued earlier". -/
theorem C5_counterexample :
    ((runKeys fsC5 (App.new fsC5 "/r")
        [{ code := .down }, { code := .char 'x' }, { code := .down }, { code := .char 'c' }]).app?.map
      fun st => (st.clipboard, st.is_cut)) = some (some "/r/b", true) ∧
    (runKeys fsC5 (App.new fsC5 "/r")
        [{ code := .down }, { code := .char 'x' }, { code := .down }, { code := .char 'c' },
         { code := .char 'p' }]).effects =
      [FsEffect.copyFile "/r/b" "/r/b", FsEffect.removeFile "/r/b"] := by decide

/-- Witness for C5 at a concrete state. -/
theorem C5_witness :
    App.copy_selected (App.new fsC5 "/r") =
      some { App.new fsC5 "/r" with
              clipboard := some (rustJoin (App.new fsC5 "/r").path "..") } :=
  (C5_copy_semantics fsC5 (App.new fsC5 "/r") ".." (by decide)).1

theorem pasteChildren_ok (fs : Fs) (fr dst : String) :
    ∀ l, (∀ c ∈ l, rustFileName (rustJoin fr c.name) = some c.name ∧
          fs.copyOk (rustJoin fr c.name) (rustJoin dst c.name) = true) →
      pasteChildren fs fr dst l =
        some (l.map fun c => FsEffect.copyFile (rustJoin fr c.name) (rustJoin dst c.name)) := by
  intro l
  induction l with
  | nil => intro _; rfl
  | cons c rest ih =>
    intro hl
    obtain ⟨hn, hcp⟩ := hl c (List.mem_cons_self c rest)
    simp only [pasteChildren, hn, Option.bind_eq_bind, Option.some_bind, hcp, if_true,
      List.map_cons]
    rw [ih (fun d hd => hl d (List.mem_cons_of_mem c hd))]
    simp

/-- C2 (amended): when the clipboard holds a directory and every direct
child can be file-copied, paste creates the destination directory and
emits exactly one `fs::copy` per direct child, in order — a strictly
one-level copy (no emitted effect touches anything below one level).
But each child is copied with `fs::copy`, which fails when the child is
itself a directory (EISDIR on Linux), and the `.unwrap()` then panics —
see the counterexample: a nested subdirectory does not merely stay
uncopied, it aborts the whole paste. -/
theorem C2_paste_shallow (fs : Fs) (a : App) (fr n : String)
    (h1 : a.clipboard = some fr) (h2 : fs.isDir fr = true)
    (h3 : rustFileName fr = some n) (h4 : a.is_cut = false)
    (h5 : fs.createDirAllOk (rustJoin a.path n) = true)
    (h6 : ∀ c ∈ fs.dirEntries fr, rustFileName (rustJoin fr c.name) = some c.name ∧
      fs.copyOk (rustJoin fr c.name) (rustJoin (rustJoin a.path n) c.name) = true) :
    App.paste fs a =
      some ({ a with files := fs.list a.path a.show_hidden },
        FsEffect.createDirAll (rustJoin a.path n) ::
          (fs.dirEntries fr).map fun c =>
            FsEffect.copyFile (rustJoin fr c.name) (rustJoin (rustJoin a.path n) c.name)) := by
  unfold App.paste
  rw [h1]
  simp [h3, h2, h5, h4, pasteChildren_ok fs fr (rustJoin a.path n) (fs.dirEntries fr) h6]

def fsC2 : Fs :=
  { fsBase with
    dirEntries := fun p => if p = "/src" then [⟨"sub", true⟩] else []
    isDir := fun p => p == "/src" || p == "/src/sub"
    copyOk := fun s _ => !(s == "/src/sub") }

/-- C2 (counterexample): the clipboard holds directory `/src` whose only
direct child `sub` is itself a directory.  The paste loop runs
`fs::copy("/src/sub", ...)`, which fails on Linux because the source is
a directory (EISDIR) — the oracle records that verdict — and the
`.unwrap()` panics: there is no successful paste, and the direct child
is never present at the destination, contrary to the claim. -/
theorem C2_counterexample :
    App.paste fsC2 { App.new fsC2 "/dst" with clipboard := some "/src" } = none := by decide

def fsC2w : Fs :=
  { fsBase with
    dirEntries := fun p => if p = "/src" then [⟨"f1", false⟩, ⟨"f2", false⟩] else []
    isDir := fun p => p == "/src" }

def appC2w : App := { App.new fsC2w "/dst" with clipboard := some "/src" }

/-- Witness for C2 at a concrete state (two plain-file children). -/
theorem C2_witness :
    App.paste fsC2w appC2w =
      some ({ appC2w with files := fsC2w.list appC2w.path appC2w.show_hidden },
        FsEffect.createDirAll (rustJoin appC2w.path "src") ::
          (fsC2w.dirEntries "/src").map fun c =>
            FsEffect.copyFile (rustJoin "/src" c.name) (rustJoin (rustJoin appC2w.path "src") c.name)) :=
  C2_paste_shallow fsC2w appC2w "/src" "src" (by decide) (by decide) (by decide) (by decide)
    (by decide) (by decide)

def fsC1 : Fs :=
  { fsBase with
    dirEntries := fun p => if p = "/r" then [⟨"a", false⟩] else []
    trashOk := fun _ => false }

/-- C1 (counterexample): the `App` struct has no error slot at all and
`confirm_delete` runs `trash::delete(path).unwrap()`.  With a trash
service that fails, the reachable key sequence Down, `d` (opens the
confirmation gate), `y` (confirms) panics and aborts the event loop
instead of converting the failure into an error string and
continuing. -/
theorem C1_counterexample :
    runKeys fsC1 (App.new fsC1 "/r")
      [{ code := .down }, { code := .char 'd' }, { code := .char 'y' }] = .panic := by decide

/-- C1 (amended): the program has no `BrowserState.error` slot; every
filesystem or trash failure during a mode-state-machine operation hits
an `.unwrap()` and panics, aborting the loop: trash failure in
`confirm_delete`, `fs::copy` failure in `paste`, and `fs::rename` /
`fs::create_dir_all` / `File::create` failures in the Rename, Move,
CreateDirectory and Create commits. -/
theorem C1_failures_panic (fs : Fs) (a : App) (n : String)
    (h : a.files[a.selected]? = some n) :
    (fs.trashOk (rustJoin a.path n) = false → App.confirm_delete fs a = none) ∧
    (∀ fr, a.clipboard = some fr → fs.isDir fr = false →
      ∀ m, rustFileName fr = some m → fs.copyOk fr (rustJoin a.path m) = false →
      App.paste fs a = none) ∧
    (a.mode = AppMode.Rename →
      fs.renameOk (rustJoin a.path n) (rustJoin a.path a.rename_input) = false →
      step fs a { code := .enter } = .panic) ∧
    (a.mode = AppMode.Move → fs.renameOk (rustJoin a.path n) a.move_input = false →
      step fs a { code := .enter } = .panic) ∧
    (a.mode = AppMode.CreateDirectory →
      fs.createDirAllOk (rustJoin a.path a.create_directory_input) = false →
      step fs a { code := .enter } = .panic) ∧
    (∀ p, a.mode = AppMode.Create → createCommit a.path a.create_input = .file p →
      fs.createFileOk p = false → step fs a { code := .enter } = .panic) := by
  refine ⟨?_, ?_, ?_, ?_, ?_, ?_⟩
  · intro ht
    simp [App.confirm_delete, h, ht]
  · intro fr hclip hdir m hm hcp
    unfold App.paste
    rw [hclip]
    simp [hm, hdir, hcp]
  · intro hmode hren
    simp [step, hmode, stepRename, h, hren]
  · intro hmode hren
    simp [step, hmode, stepMove, h, hren]
  · intro hmode hmk
    simp [step, hmode, stepCreateDirectory, hmk]
  · intro p hmode hcc hcf
    simp [step, hmode, stepCreate, hcc, hcf]

/-- Witness for C1 at a concrete state. -/
theorem C1_witness : App.confirm_delete fsC1 (App.new fsC1 "/r") = none :=
  (C1_failures_panic fsC1 (App.new fsC1 "/r") ".." (by decide)).1 (by decide)

/-! ## Preview classification (claim C8) -/

/-- Linux verdicts for the C9 state: `File::create` on a path with a
trailing separator fails (EISDIR/ENOENT), so its `…Ok` verdict is
false. -/
def fsC9 : Fs := { fsBase with createFileOk := fun _ => false }

/-- C9 (code bug): the Create commit tests `Path::ends_with("/")`,
which matches whole path components, not a trailing character:
`"/home/user".join("d/")` is `"/home/user/d/"` with components
`RootDir, home, user, d`, whose last is not `RootDir`, so the test is
false for every typed name that ends in `/` (it would only hold for
the root path itself, third conjunct).  The commit therefore takes the
`File::create` branch; on Linux `File::create("/home/user/d/")` fails
because of the trailing separator and the `.unwrap()` panics (fourth
conjunct).  Typing a name ending in a path separator never creates a
directory, contrary to the claim. -/
theorem C9_create_slip :
    createCommit "/home/user" "d/" = .file "/home/user/d/" ∧
    rustEndsWith "/home/user/d/" "/" = false ∧
    rustEndsWith "/" "/" = true ∧
    step fsC9 { App.new fsC9 "/home/user" with mode := .Create, create_input := "d/" }
      { code := .enter } = .panic := by decide

/-- C10 (confirmed): in Normal mode with the Files panel focused,
pressing `s` on a non-directory selection reads that file's content
(or the fallback string "Cannot read file" when the read fails) and
performs `fs::write("saved_file.txt", content)` — a relative path,
resolved against the process's current working directory, and
`fs::write` creates or truncates, i.e. overwrites, any existing file
of that name — while the `App` state itself is unchanged. -/
theorem C10_save_key (fs : Fs) (a : App) (n : String)
    (h1 : a.mode = AppMode.Normal) (h2 : a.panel_focus = PanelFocus.Files)
    (h3 : a.files[a.selected]? = some n)
    (h4 : fs.isDir (rustJoin a.path n) = false)
    (h5 : fs.writeOk "saved_file.txt"
      ((fs.readToString (rustJoin a.path n)).getD "Cannot read file") = true) :
    step fs a { code := .char 's' } =
      .cont a [FsEffect.writeFile "saved_file.txt"
        ((fs.readToString (rustJoin a.path n)).getD "Cannot read file")] := by
  simp [step, h1, h2, stepNormalFiles, App.save_file, h3, h4, h5, contOf]

def fsC10 : Fs :=
  { fsBase with
    dirEntries := fun p => if p = "/r" then [⟨"a", false⟩] else []
    readToString := fun p => if p = "/r/a" then some "hello" else none }

def appC10 : App := { App.new fsC10 "/r" with selected := 1 }

/-- Witness for C10 at a concrete state (selection on the file `a`). -/
theorem C10_witness :
    step fsC10 appC10 { code := .char 's' } =
      .cont appC10 [FsEffect.writeFile "saved_file.txt"
        ((fsC10.readToString (rustJoin appC10.path "a")).getD "Cannot read file")] :=
  C10_save_key fsC10 appC10 "a" (by decide) (by decide) (by decide) (by decide) (by decide)

end Karu
namespace Karu

/-- Witness for C3 at a concrete lowercasing and listing. -/
theorem C3_witness :
    ∃ hd nd hf nf,
      get_filesWith asciiLowerString [⟨"b", false⟩, ⟨"zz", true⟩] true =
        ".." :: (hd ++ nd ++ hf ++ nf) ∧
      (∀ n ∈ hd, startsDot n = true ∧
        ∃ e ∈ ([⟨"b", false⟩, ⟨"zz", true⟩] : List RawEntry), e.name = n ∧ e.isDir = true) ∧
      (∀ n ∈ nd, startsDot n = false ∧
        ∃ e ∈ ([⟨"b", false⟩, ⟨"zz", true⟩] : List RawEntry), e.name = n ∧ e.isDir = true) ∧
      (∀ n ∈ hf, startsDot n = true ∧
        ∃ e ∈ ([⟨"b", false⟩, ⟨"zz", true⟩] : List RawEntry), e.name = n ∧ e.isDir = false) ∧
      (∀ n ∈ nf, startsDot n = false ∧
        ∃ e ∈ ([⟨"b", false⟩, ⟨"zz", true⟩] : List RawEntry), e.name = n ∧ e.isDir = false) ∧
      hd.Pairwise (fun x y => withinGroupLeWith asciiLowerString x y = true) ∧
      nd.Pairwise (fun x y => withinGroupLeWith asciiLowerString x y = true) ∧
      hf.Pairwise (fun x y => withinGroupLeWith asciiLowerString x y = true) ∧
      nf.Pairwise (fun x y => withinGroupLeWith asciiLowerString x y = true) ∧
      (∀ e ∈ ([⟨"b", false⟩, ⟨"zz", true⟩] : List RawEntry), keepB true e = true →
        e.name ∈ hd ++ nd ++ hf ++ nf) :=
  C3_listing_grouped asciiLowerString [⟨"b", false⟩, ⟨"zz", true⟩] true

end Karu

